import Mathlib

/-!
Shallow embedding of the neatchi NEAT/CPPN genome engine.

The repository contains two co-existing revisions of the genome code:

* `src/reproduction.py` together with `src/neat.py` works on dynamic
  node/link lists whose entries carry a `deleted` flag (entries are never
  compacted).  It provides `mutate_one`, `add_random_link`,
  `add_random_node`, `insert_node`, `clone`, `crossover`,
  `Matches.update_mate_links`, `Matches.is_compatible` and `propagate`.
  This revision is embedded in the `Repro` namespace.

* `src/population.py` together with `src/selection.py` and
  `src/validation.py` works on fixed-capacity arrays with explicit live
  length counters and compacting shift operations (`insert_node`,
  `delete_node`, `add_link`, `delete_link`, `has_room_for`,
  `restore_elites`, `get_compatibility`).  This revision is embedded in
  the `Pop` namespace.

Machine integers are modelled as `Nat` (all quantities involved stay far
below the `int8`/`int32` bounds: network sizes are capped at 30), floats
as `ℚ`, and every random draw taken with `ti.random` / `ti.randn` is an
explicit argument of the operation that consumes it.  Taichi dynamic
fields (`append` / `length` / `deactivate`) are modelled as Lean lists.
-/

/-- Maximum node and link capacity of one CPPN, src/data_types.py line 26. -/
def MAX_NETWORK_SIZE : ℕ := 30

/-- Number of members of the ActivationFuncs enum, src/activation_funcs.py. -/
def NUM_ACTIVATION_FUNCS : ℕ := 18

/-- Sentinel index, Matches.NONE = -1 in src/reproduction.py line 160. -/
def NONE : ℤ := -1

namespace Repro

/-- Node record of src/data_types.py plus the deleted flag used by the
dynamic-list revision in src/reproduction.py. -/
structure RNode where
  kind : ℕ
  act_func : ℕ
  bias : ℚ
  gain : ℚ
  deleted : Bool
deriving DecidableEq, Inhabited

/-- Link record of src/data_types.py plus the deleted flag used by the
dynamic-list revision in src/reproduction.py. -/
structure RLink where
  from_node : ℕ
  to_node : ℕ
  weight : ℚ
  innov : ℕ
  deleted : Bool
deriving DecidableEq, Inhabited

/-- One individual's genome: the dynamic node and link lists (deleted
entries included, as in the Taichi dynamic fields). -/
structure RGenome where
  nodes : List RNode
  links : List RLink
deriving DecidableEq, Inhabited

/-- Population-level parameters of one NeatPopulation. -/
structure Config where
  num_inputs : ℕ
  num_outputs : ℕ
  is_recurrent : Bool
deriving DecidableEq

/-- NodeKinds enum values, src/data_types.py lines 29-32. -/
def NodeKinds_INPUT : ℕ := 0

/-- NodeKinds HIDDEN value. -/
def NodeKinds_HIDDEN : ℕ := 1

/-- NodeKinds OUTPUT value. -/
def NodeKinds_OUTPUT : ℕ := 2

/-- src/reproduction.py line 29: MUTATION_RATE = 0.01. -/
def MUTATION_RATE : ℚ := 1/100

/-- src/reproduction.py line 30: CROSSOVER_RATE = 0.6. -/
def CROSSOVER_RATE : ℚ := 3/5

/-- src/reproduction.py line 32. -/
def BIAS_RANGE : ℚ := 1

/-- src/reproduction.py line 33. -/
def GAIN_RANGE : ℚ := 8

/-- src/reproduction.py line 42. -/
def DISJOINT_COEFF : ℚ := 1

/-- src/reproduction.py line 43. -/
def WEIGHT_COEFF : ℚ := 1

/-- src/reproduction.py line 44. -/
def COMPATIBILITY_THRESHOLD : ℚ := 1

/-- src/reproduction.py lines 46-49: pick a random int from the given
range; `r` is the raw nonnegative `ti.random(dtype=int)` draw. -/
def rand_range (min_val max_val r : ℕ) : ℕ :=
  r % (max_val - min_val) + min_val

/-- src/population.py lines 294-297.  Note that the source compares the
node count against both the `nodes` and the `links` request; this is
preserved exactly. -/
def has_room_for (g : RGenome) (nodes links : ℕ) : Bool :=
  decide (g.nodes.length + nodes < MAX_NETWORK_SIZE) &&
  decide (g.nodes.length + links < MAX_NETWORK_SIZE)

/-- Modelled from the spec: the population method `new_link` called from
src/reproduction.py (lines 253, 343, 344) is not part of src — the
matching population-class revision is missing.  Per spec section 4.1,
`add_link(from, to, weight)` appends a new Link whose innovation number
is a fresh value claimed from the monotonically increasing global
innovation counter. -/
def new_link (g : RGenome) (counter : ℕ) (f t : ℕ) (w : ℚ) : RGenome × ℕ :=
  ({ g with links := g.links ++ [⟨f, t, w, counter, false⟩] }, counter + 1)

/-- src/reproduction.py lines 234-253: add a random link.  `r_from` and
`r_to` are the two raw integer draws, `w` the `ti.random()` weight. -/
def add_random_link (cfg : Config) (g : RGenome) (counter : ℕ)
    (r_from r_to : ℕ) (w : ℚ) : RGenome × ℕ :=
  let num_nodes := g.nodes.length
  let ft : ℕ × ℕ :=
    if cfg.is_recurrent then
      (rand_range 0 num_nodes r_from, rand_range cfg.num_inputs num_nodes r_to)
    else
      let f := rand_range 0 (num_nodes - 1) r_from
      (f, rand_range (max (f + 1) cfg.num_inputs) num_nodes r_to)
  new_link g counter ft.1 ft.2 w

/-- src/reproduction.py lines 256-260: a node with a random activation
function (`activation_funcs.random()` is a raw draw modulo the table
size) and uniform bias and gain; `u_bias` and `u_gain` are the raw
`ti.random()` draws in [0, 1]. -/
def make_random_node (node_type : ℕ) (r_act : ℕ) (u_bias u_gain : ℚ) : RNode :=
  ⟨node_type, r_act % NUM_ACTIVATION_FUNCS,
   2 * BIAS_RANGE * u_bias - BIAS_RANGE,
   2 * GAIN_RANGE * u_gain - GAIN_RANGE, false⟩

/-- Offset of the first deleted node in a list (its length when none is
deleted): the point where the shifting loop of insert_node stops. -/
def first_deleted_at : List RNode → ℕ
  | [] => 0
  | x :: rest => if x.deleted then 0 else first_deleted_at rest + 1

/-- The node-shifting walk of src/reproduction.py lines 273-285: each
node is pushed one slot down until a deleted slot absorbs the shift, or
the new node is appended at the end of the list. -/
def insert_chain (node : RNode) : List RNode → List RNode
  | [] => [node]
  | x :: rest => if x.deleted then node :: rest else node :: insert_chain x rest

/-- src/reproduction.py lines 263-294: insert a node at position `n`,
then bump every link endpoint inside the shifted block
[shift_begin, shift_end] (both bounds inclusive, as in the source).
When `n` exceeds the list length the source loop body never runs and
no node is stored, so the node list is returned unchanged there. -/
def insert_node (g : RGenome) (n : ℕ) (node : RNode) : RGenome :=
  let shift_begin := n
  let shift_end := n + first_deleted_at (g.nodes.drop n)
  { nodes :=
      if n ≤ g.nodes.length then g.nodes.take n ++ insert_chain node (g.nodes.drop n)
      else g.nodes,
    links := g.links.map fun l =>
      { l with
        from_node :=
          if shift_begin ≤ l.from_node ∧ l.from_node ≤ shift_end
          then l.from_node + 1 else l.from_node,
        to_node :=
          if shift_begin ≤ l.to_node ∧ l.to_node ≤ shift_end
          then l.to_node + 1 else l.to_node } }

/-- src/reproduction.py lines 296-344: replace one link with a node and
two links in the same place.  The random draws consumed along the way
are explicit arguments: `r_from r_to w_fb` feed the fallback
add_random_link when no link exists, `r_link` picks the link to split,
`r_act u_bias u_gain` build the new hidden node, `r_pos` picks the
insertion position. -/
def add_random_node (cfg : Config) (g0 : RGenome) (c0 : ℕ)
    (r_from r_to : ℕ) (w_fb : ℚ) (r_link r_act : ℕ) (u_bias u_gain : ℚ)
    (r_pos : ℕ) : RGenome × ℕ :=
  -- We add nodes by splitting a link, so make sure one is available.
  let gc := if g0.links.length = 0
            then add_random_link cfg g0 c0 r_from r_to w_fb else (g0, c0)
  let g := gc.1
  let c := gc.2
  -- Select a random link to be split (the source does not check whether
  -- it has been deleted).
  let l := rand_range 0 g.links.length r_link
  let old_link := g.links.getD l default
  let node := make_random_node NodeKinds_HIDDEN r_act u_bias u_gain
  let gn : RGenome × ℕ :=
    if cfg.is_recurrent then
      ({ g with nodes := g.nodes ++ [node] }, g.nodes.length)
    else
      let n := rand_range (max old_link.from_node (cfg.num_inputs - 1))
                 (min old_link.to_node (g.nodes.length - cfg.num_outputs))
                 r_pos + 1
      (insert_node g n node, n)
  let g1 := gn.1
  let n := gn.2
  -- Mark the link we chose as deleted, then refresh the local copy (the
  -- insert may have updated its node indexes).
  let g2 := { g1 with
              links := g1.links.set l ({ g1.links.getD l default with deleted := true }) }
  let old2 := g2.links.getD l default
  let rc1 := new_link g2 c old2.from_node n old2.weight
  new_link rc1.1 rc1.2 n old2.to_node 1

/-- The raw random draws one call of mutate_one may consume. -/
structure MutRands where
  r_kind : ℕ
  r_node : ℕ
  r_link : ℕ
  r_from : ℕ
  r_to : ℕ
  r_pos : ℕ
  r_act : ℕ
  u_bias : ℚ
  u_gain : ℚ
  u_weight : ℚ
  g_norm : ℚ
deriving DecidableEq, Inhabited

/-- src/reproduction.py lines 350-407: randomly choose one kind of
mutation and apply it.  The branch structure — including the second,
unreachable `mutation_kind == 3` test guarding the gain change — is
reproduced exactly from the source. -/
def mutate_one (cfg : Config) (g : RGenome) (c : ℕ) (r : MutRands) :
    RGenome × ℕ :=
  let mutation_kind := rand_range 0 8 r.r_kind
  -- Add node
  if mutation_kind = 0 ∧ has_room_for g 1 2 = true then
    add_random_node cfg g c r.r_from r.r_to r.u_weight r.r_link r.r_act
      r.u_bias r.u_gain r.r_pos
  -- Remove node
  else if mutation_kind = 1 then
    let num_hidden := g.nodes.length - cfg.num_inputs - cfg.num_outputs
    if num_hidden > 0 then
      let n := rand_range cfg.num_inputs (cfg.num_inputs + num_hidden) r.r_node
      ({ nodes := g.nodes.set n ({ g.nodes.getD n default with deleted := true }),
         links := g.links.map fun l =>
           if l.from_node = n ∨ l.to_node = n then { l with deleted := true } else l }, c)
    else (g, c)
  -- Change activation
  else if mutation_kind = 2 then
    let n := rand_range 0 g.nodes.length r.r_node
    let node := { g.nodes.getD n default with act_func := r.r_act % NUM_ACTIVATION_FUNCS }
    ({ g with nodes := g.nodes.set n node }, c)
  -- Change bias
  else if mutation_kind = 3 then
    let n := rand_range 0 g.nodes.length r.r_node
    let node := g.nodes.getD n default
    ({ g with nodes := g.nodes.set n ({ node with bias := node.bias + r.g_norm * BIAS_RANGE }) }, c)
  -- Change gain (dead code: same guard as the bias branch, as in source)
  else if mutation_kind = 3 then
    let n := rand_range 0 g.nodes.length r.r_node
    let node := g.nodes.getD n default
    ({ g with nodes := g.nodes.set n ({ node with gain := r.g_norm * GAIN_RANGE }) }, c)
  -- Add link
  else if mutation_kind = 5 ∧ has_room_for g 0 1 = true then
    add_random_link cfg g c r.r_from r.r_to r.u_weight
  -- Remove link
  else if mutation_kind = 6 ∧ g.links.length > 0 then
    let l := rand_range 0 g.links.length r.r_link
    ({ g with links := g.links.set l ({ g.links.getD l default with deleted := true }) }, c)
  -- Change weight
  else if mutation_kind = 7 then
    if g.links.length > 0 then
      let l := rand_range 0 g.links.length r.r_link
      ({ g with links := g.links.set l ({ g.links.getD l default with weight := r.u_weight }) }, c)
    -- If there are no links, add a random link instead.
    else add_random_link cfg g c r.r_from r.r_to r.u_weight
  else (g, c)

/-- src/reproduction.py lines 436-448: copy the parent's full node list
and all of its non-deleted links into the cleared output slot. -/
def clone (p_nodes : List RNode) (p_links : List RLink) : RGenome :=
  { nodes := p_nodes, links := p_links.filter fun l => !l.deleted }

/-- Inner scan of Matches.update_mate_links (src/reproduction.py lines
182-188): walk the mate's links and record the index of each
non-deleted link whose innovation number matches; later matches
overwrite earlier ones. -/
def mate_link_scan (innov : ℕ) : List RLink → ℕ → Option ℕ → Option ℕ
  | [], _, acc => acc
  | m_link :: rest, ml, acc =>
    if m_link.deleted then mate_link_scan innov rest (ml + 1) acc
    else if m_link.innov = innov then mate_link_scan innov rest (ml + 1) (some ml)
    else mate_link_scan innov rest (ml + 1) acc

/-- src/reproduction.py lines 170-193: the mate_links table for one
(parent, mate) pair, after being filled with NONE and updated.  The
source skips every parent link for which `not p_link.deleted` holds, so
only deleted parent links ever receive an entry.  NONE is modelled as
`none`. -/
def update_mate_links (p_links m_links : List RLink) : ℕ → Option ℕ :=
  fun pl =>
    match p_links.get? pl with
    | Option.none => none
    | Option.some p_link =>
      if p_link.deleted = false then none
      else mate_link_scan p_link.innov m_links 0 none

/-- Link-building loop of crossover (src/reproduction.py lines 417-434);
`pl` is the running parent-link index, `coin` the per-link
`ti.random(dtype=int) % 2` draw. -/
def crossover_links (m_links : List RLink) (table : ℕ → Option ℕ)
    (coin : ℕ → Bool) : List RLink → ℕ → List RLink
  | [], _ => []
  | p_link :: rest, pl =>
    if p_link.deleted then crossover_links m_links table coin rest (pl + 1)
    else
      let link :=
        match table pl with
        | Option.none => p_link
        | Option.some ml =>
          let m_link := m_links.getD ml default
          if m_link.deleted = false ∧ coin pl = true then m_link else p_link
      link :: crossover_links m_links table coin rest (pl + 1)

/-- src/reproduction.py lines 409-434: crossover copies the parent's
node list verbatim and then builds the offspring link list from the
parent's live links, substituting the mate's aligned link record when
the table has an entry, that mate link is live, and the coin flip says
so. -/
def crossover (p_nodes : List RNode) (p_links m_links : List RLink)
    (table : ℕ → Option ℕ) (coin : ℕ → Bool) : RGenome :=
  { nodes := p_nodes, links := crossover_links m_links table coin p_links 0 }

/-- src/reproduction.py lines 195-220, Matches.is_compatible for one
(parent, mate) pair.  `pl != NONE` is always true for a loop index, so
the first test reduces to the table having an entry. -/
def is_compatible (p_links m_links : List RLink) (table : ℕ → Option ℕ) : Bool :=
  let stats :=
    (List.range p_links.length).foldl
      (fun (acc : ℕ × ℕ × ℚ) pl =>
        match table pl with
        | Option.some ml =>
          (acc.1, acc.2.1 + 1,
           acc.2.2 + |(p_links.getD pl default).weight -
                      (m_links.getD ml default).weight|)
        | Option.none => (acc.1 + 1, acc.2.1 + 1, acc.2.2))
      (0, 0, 0)
  decide ((DISJOINT_COEFF * (stats.1 : ℚ) / (stats.2.1 : ℚ)) +
          WEIGHT_COEFF * stats.2.2 < COMPATIBILITY_THRESHOLD)

/-- src/reproduction.py lines 222-231: crossover happens when parent and
mate are distinct individuals, the crossover-rate draw succeeds, and the
pair is compatible. -/
def should_crossover (p m : ℕ) (u : ℚ) (p_links m_links : List RLink)
    (table : ℕ → Option ℕ) : Bool :=
  if p ≠ m ∧ u < CROSSOVER_RATE then is_compatible p_links m_links table
  else false

/-- The random draws the propagate kernel body consumes for one child. -/
structure PropRands where
  u_crossover : ℚ
  u_mutate : ℚ
  coin : ℕ → Bool
  mrand : MutRands

/-- src/reproduction.py lines 450-464: the propagate kernel body for one
child whose selected parent and mate are `p` and `m`.  The offspring is
produced by crossover or clone, after which the body contains exactly
one mutation-rate-gated call of mutate_one; the last component of the
result counts the gated mutation attempts made for this child (the
single site at lines 463-464). -/
def propagate_one (p m : ℕ) (p_nodes : List RNode)
    (p_links m_links : List RLink) (table : ℕ → Option ℕ) (c : ℕ)
    (cfg : Config) (pr : PropRands) : RGenome × ℕ × ℕ :=
  let offspring :=
    if should_crossover p m pr.u_crossover p_links m_links table = true
    then crossover p_nodes p_links m_links table pr.coin
    else clone p_nodes p_links
  if pr.u_mutate < MUTATION_RATE then
    let gc := mutate_one cfg offspring c pr.mrand
    (gc.1, gc.2, 1)
  else (offspring, c, 1)

end Repro

namespace Pop

/-- Node record of src/data_types.py, as used by the shifting revision in
src/population.py (no deleted flag: entries are compacted in place). -/
structure PNode where
  kind : ℕ
  act_func : ℕ
  bias : ℚ
  gain : ℚ
deriving DecidableEq, Inhabited

/-- Link record of src/data_types.py for the shifting revision. -/
structure PLink where
  from_node : ℕ
  to_node : ℕ
  weight : ℚ
  innov : ℕ
deriving DecidableEq, Inhabited

/-- One individual's genome in the shifting revision: the live prefixes
of the node and link arrays (`node_lens` and `link_lens` are the list
lengths). -/
structure PGenome where
  nodes : List PNode
  links : List PLink
deriving DecidableEq, Inhabited

/-- src/population.py lines 294-297.  The source compares
`num_nodes + nodes` and also `num_nodes + links` against
MAX_NETWORK_SIZE; the second comparison reads the node count, exactly as
written in the source. -/
def has_room_for (g : PGenome) (nodes links : ℕ) : Bool :=
  decide (g.nodes.length + nodes < MAX_NETWORK_SIZE) &&
  decide (g.nodes.length + links < MAX_NETWORK_SIZE)

/-- src/population.py lines 263-268: add_link stamps the link with the
next innovation-counter value, stores it at index `num_links` and
increments `link_lens`. -/
def add_link (g : PGenome) (counter : ℕ) (link : PLink) : PGenome × ℕ :=
  ({ g with links := g.links ++ [{ link with innov := counter }] }, counter + 1)

/-- src/population.py lines 178-209: insert a node at slot `n`.  The
walk shifts nodes `n .. num_nodes` one slot down and appends the last
one, so for `n ≤ num_nodes` the node list gains `node` at position `n`;
for larger `n` the loop body never runs and, with
`shift_begin = shift_end = n`, the link update touches nothing.  After
the shift, every link endpoint in `[shift_begin, shift_end)` (strict
upper bound in this revision, with `shift_end = num_nodes`) is
incremented. -/
def insert_node (g : PGenome) (n : ℕ) (node : PNode) : PGenome :=
  if n ≤ g.nodes.length then
    { nodes := g.nodes.take n ++ node :: g.nodes.drop n,
      links := g.links.map fun l =>
        { l with
          from_node :=
            if n ≤ l.from_node ∧ l.from_node < g.nodes.length
            then l.from_node + 1 else l.from_node,
          to_node :=
            if n ≤ l.to_node ∧ l.to_node < g.nodes.length
            then l.to_node + 1 else l.to_node } }
  else g

/-- Link fix-up loop of delete_node, src/population.py lines 227-242:
a while loop that first decrements every endpoint exceeding `n`, then
deletes the link outright when one of its original endpoints equals `n`
(the `continue` without advancing `l` makes the loop process the link
shifted into the vacated slot next, which is exactly what processing the
rest of the list does here). -/
def delete_node_links (n : ℕ) : List PLink → List PLink
  | [] => []
  | link :: rest =>
    let shifted : PLink :=
      { link with
        from_node := if n < link.from_node then link.from_node - 1 else link.from_node,
        to_node := if n < link.to_node then link.to_node - 1 else link.to_node }
    if link.from_node = n ∨ link.to_node = n then delete_node_links n rest
    else shifted :: delete_node_links n rest

/-- src/population.py lines 211-242: remove the node at `n` by shifting
every following node one slot forward (`take n ++ drop (n+1)` is that
shift followed by the length decrement) and fix up the links. -/
def delete_node (g : PGenome) (n : ℕ) : PGenome :=
  { nodes := g.nodes.take n ++ g.nodes.drop (n + 1),
    links := delete_node_links n g.links }

/-- src/selection.py line 6. -/
def DISJOINT_COEFF : ℚ := 1

/-- src/selection.py line 7: WEIGHT_COEFF = 0.4. -/
def WEIGHT_COEFF : ℚ := 2/5

/-- src/selection.py line 8: EPSILON = 1e-8. -/
def EPSILON : ℚ := 1/100000000

/-- src/selection.py line 11. -/
def COMP_THRESHOLD : ℚ := 3

/-- Loop body of get_compatibility (src/selection.py lines 32-45): the
accumulator carries (num_disjoint, num_common_weights, weight_delta) and
is updated once per (parent link, mate link) pair. -/
def compat_step (p_link : PLink) (acc : ℕ × ℕ × ℚ) (m_link : PLink) :
    ℕ × ℕ × ℚ :=
  if p_link.innov = m_link.innov then
    (acc.1, acc.2.1 + 1, acc.2.2 + |p_link.weight - m_link.weight|)
  else (acc.1 + 1, acc.2.1, acc.2.2)

/-- The nested scan of get_compatibility over every pair of one parent
link and one mate link. -/
def compat_counts (p_links m_links : List PLink) : ℕ × ℕ × ℚ :=
  p_links.foldl (fun acc p_link => m_links.foldl (compat_step p_link) acc)
    (0, 0, 0)

/-- src/selection.py lines 15-49: compatibility between a pair of CPPNs,
computed from their live link lists. -/
def get_compatibility (p_links m_links : List PLink) : ℚ :=
  let largest_num_links : ℕ := max p_links.length m_links.length
  let c := compat_counts p_links m_links
  DISJOINT_COEFF * (c.1 : ℚ) / (EPSILON + (largest_num_links : ℚ)) +
  WEIGHT_COEFF * c.2.2 / (EPSILON + (c.2.1 : ℚ))

/-- The population fields touched by restore_elites
(src/population.py).  The two generation buffers are indexed by a
`Bool` (the source uses the integers 0 and 1 with `1 - b` for the other
buffer); the remaining indices are (sub-population, individual, slot).
Slots at index MAX_NETWORK_SIZE and beyond do not exist in the real
fixed-size fields, and the model never reads or writes them. -/
structure PopState where
  nodes : Bool → ℕ → ℕ → ℕ → PNode
  links : Bool → ℕ → ℕ → ℕ → PLink
  node_lens : Bool → ℕ → ℕ → ℕ
  link_lens : Bool → ℕ → ℕ → ℕ
  match_records : ℕ → ℕ → ℤ × ℤ
  buffer_index : Bool

/-- The writes restore_elites performs for one elite entry
(src/population.py lines 299-315): all MAX_NETWORK_SIZE node and link
slots of the current buffer are copied from the previous buffer, and
(once, at x = 0) the match record is set to (own index, NONE) and both
length counters are copied. -/
def restore_one (st : PopState) (e : ℕ × ℕ) : PopState :=
  let b := st.buffer_index
  { st with
    nodes := fun b2 sp i x =>
      if b2 = b ∧ sp = e.1 ∧ i = e.2 ∧ x < MAX_NETWORK_SIZE
      then st.nodes (!b) sp i x else st.nodes b2 sp i x,
    links := fun b2 sp i x =>
      if b2 = b ∧ sp = e.1 ∧ i = e.2 ∧ x < MAX_NETWORK_SIZE
      then st.links (!b) sp i x else st.links b2 sp i x,
    node_lens := fun b2 sp i =>
      if b2 = b ∧ sp = e.1 ∧ i = e.2
      then st.node_lens (!b) sp i else st.node_lens b2 sp i,
    link_lens := fun b2 sp i =>
      if b2 = b ∧ sp = e.1 ∧ i = e.2
      then st.link_lens (!b) sp i else st.link_lens b2 sp i,
    match_records := fun sp i =>
      if sp = e.1 ∧ i = e.2 then ((i : ℤ), NONE) else st.match_records sp i }

/-- src/population.py lines 299-315: restore_elites applies the copy for
every listed (sub_pop, individual) pair.  The kernel runs its writes in
parallel; since every write for a pair reads only the untouched previous
buffer, the sequential fold is a faithful serialization. -/
def restore_elites (st : PopState) (elites : List (ℕ × ℕ)) : PopState :=
  elites.foldl restore_one st

end Pop

/-! Concrete inputs used by the evaluation theorems and witnesses. -/

/-- A minimal non-recurrent configuration: one input, one output (the
Neat class in src/neat.py asserts num_outputs == 1). -/
def cfgW : Repro.Config := ⟨1, 1, false⟩

/-- A live input node. -/
def inNodeW : Repro.RNode := ⟨Repro.NodeKinds_INPUT, 0, 0, 0, false⟩

/-- A live output node. -/
def outNodeW : Repro.RNode := ⟨Repro.NodeKinds_OUTPUT, 2, 0, 0, false⟩

/-- A small well-formed genome: input node, output node, one live link. -/
def gW : Repro.RGenome := ⟨[inNodeW, outNodeW], [⟨0, 1, 1/2, 7, false⟩]⟩

/-- Random draws whose mutation-kind draw is 4 (4 % 8 = 4). -/
def rand4W : Repro.MutRands := ⟨4, 0, 0, 0, 0, 0, 0, 0, 0, 0, 0⟩

/-- Random draws whose mutation-kind draw is 3 and whose gaussian draw
is 1. -/
def rand3W : Repro.MutRands := ⟨3, 0, 0, 0, 0, 0, 0, 0, 0, 0, 1⟩

/-- Parent node list for the crossover and clone evaluations. -/
def pNodesW : List Repro.RNode := [inNodeW, outNodeW]

/-- Parent link list: one live link with innovation id 5. -/
def pLinksW : List Repro.RLink := [⟨0, 1, 1/2, 5, false⟩]

/-- Mate link list: one live link sharing innovation id 5 but with a
different weight. -/
def mLinksW : List Repro.RLink := [⟨0, 1, 3/4, 5, false⟩]

/-- An empty mate-links table (every entry NONE). -/
def tblNoneW : ℕ → Option ℕ := fun _ => none

/-- A coin that always chooses the mate's copy. -/
def coinW : ℕ → Bool := fun _ => true

/-- The link that clone and crossover copy from pLinksW. -/
def lnkCloneW : Repro.RLink := ⟨0, 1, 1/2, 5, false⟩

/-- A parent with node_count + link_count = 24. -/
def pn24W : List Repro.RNode := List.replicate 4 inNodeW

/-- Twenty live links for the size-24 parent. -/
def pl20W : List Repro.RLink := List.replicate 20 ⟨0, 1, 1/2, 7, false⟩

/-- A parent with node_count + link_count = 4. -/
def pn2W : List Repro.RNode := List.replicate 2 inNodeW

/-- Two live links for the size-4 parent. -/
def pl2W : List Repro.RLink := List.replicate 2 ⟨0, 1, 1/2, 7, false⟩

/-- Propagation draws: the crossover draw and the mutation-gate draw
both fail (1 ≥ CROSSOVER_RATE and 1 ≥ MUTATION_RATE). -/
def prNoMutW : Repro.PropRands := ⟨1, 1, fun _ => false, rand4W⟩

/-- A plain node for the shifting-revision genomes. -/
def pnodeW : Pop.PNode := ⟨0, 0, 0, 0⟩

/-- A plain link for the shifting-revision genomes. -/
def plinkW : Pop.PLink := ⟨0, 1, 1/2, 3⟩

/-- A genome with 3 nodes and links already at full capacity
(link_count = MAX_NETWORK_SIZE = 30). -/
def gCapW : Pop.PGenome := ⟨[pnodeW, pnodeW, pnodeW], List.replicate 30 plinkW⟩

/-- Link list of genome A in the spec scenario: innovation ids 1, 2, 3. -/
def aLinksW : List Pop.PLink := [⟨0, 1, 1/2, 1⟩, ⟨0, 2, 1/2, 2⟩, ⟨1, 2, 1/2, 3⟩]

/-- Link list of genome B in the spec scenario: innovation ids 1, 2, 4. -/
def bLinksW : List Pop.PLink := [⟨0, 1, 1/2, 1⟩, ⟨0, 2, 1/2, 2⟩, ⟨1, 2, 1/2, 4⟩]

/-- A three-node genome with two links, for the insert/delete round
trip. -/
def gW7 : Pop.PGenome := ⟨[pnodeW, pnodeW, pnodeW], [⟨0, 2, 1/2, 1⟩, ⟨1, 2, 1/3, 2⟩]⟩

/-- The node inserted in the round-trip witness. -/
def nodeW7 : Pop.PNode := ⟨1, 3, 0, 0⟩

/-- A three-node genome whose links exercise every delete_node case. -/
def gW8 : Pop.PGenome :=
  ⟨[pnodeW, pnodeW, pnodeW], [⟨0, 1, 1/2, 1⟩, ⟨1, 2, 1/3, 2⟩, ⟨0, 2, 1/4, 3⟩]⟩

/-- A concrete population state with buffer 0 current and recognisable
per-buffer length counters. -/
def stW : Pop.PopState :=
  ⟨fun _ _ _ _ => pnodeW, fun _ _ _ _ => plinkW,
   fun b _ _ => if b then 5 else 3, fun b _ _ => if b then 6 else 4,
   fun _ _ => (0, 0), false⟩

/-- One listed elite: sub-population 0, individual 1. -/
def elitesW : List (ℕ × ℕ) := [(0, 1)]


/-! Claim theorems. -/

/-- C2: in src/reproduction.py lines 379-386 both the bias branch and
the gain branch of mutate_one test `mutation_kind == 3`, so the gain
branch is dead code and the mutation-kind draw 4 — the slot the spec
assigns to change-gain — hits no branch at all.  Evaluated on a
concrete genome: a kind draw of 4 leaves the genome unchanged, and the
kind draw 3 changes a bias while leaving every gain unchanged. -/
theorem C2_change_gain_dead_code :
    Repro.mutate_one cfgW gW 0 rand4W = (gW, 0) ∧
    (Repro.mutate_one cfgW gW 0 rand3W).1.nodes.map Repro.RNode.gain =
      gW.nodes.map Repro.RNode.gain ∧
    (Repro.mutate_one cfgW gW 0 rand3W).1.nodes.map Repro.RNode.bias ≠
      gW.nodes.map Repro.RNode.bias := by
  refine ⟨rfl, rfl, ?_⟩
  norm_num [Repro.mutate_one, Repro.rand_range, Repro.BIAS_RANGE, gW, rand3W,
    cfgW, inNodeW, outNodeW, Repro.has_room_for]

/-- C3: get_compatibility (src/selection.py lines 32-45) increments
num_disjoint once for every (parent link, mate link) pair whose
innovation ids differ, contradicting its own comment.  On the spec
scenario — A with ids {1,2,3}, B with ids {1,2,4} — it therefore
reports num_disjoint = 7, not the 2 the claim states (num_common = 2 as
claimed). -/
theorem C3_disjoint_counts_pairs :
    (Pop.compat_counts aLinksW bLinksW).1 = 7 ∧
    (Pop.compat_counts aLinksW bLinksW).2.1 = 2 ∧ (7 : ℕ) ≠ 2 := by
  refine ⟨rfl, rfl, by decide⟩

/-- C4: has_room_for (src/population.py lines 294-297) compares the
node count against the `links` request, so on a genome with 3 nodes and
links already at full capacity (30 = MAX_NETWORK_SIZE) it still reports
room for one more link, and add_link then takes link_count to 31,
beyond MAX_NETWORK_SIZE (in the fixed-size field this is the write of
slot index 30, one past the last slot). -/
theorem C4_has_room_for_ignores_link_count :
    Pop.has_room_for gCapW 0 1 = true ∧
    gCapW.links.length = MAX_NETWORK_SIZE ∧
    (Pop.add_link gCapW 99 plinkW).1.links.length = MAX_NETWORK_SIZE + 1 := by
  refine ⟨by decide, by decide, by decide⟩

/-- C5 (amended): the propagate kernel body performs exactly one
rate-gated mutation attempt per offspring, and the produced genome is
the crossover or clone result with at most one mutate_one application
— independent of the genome's size. -/
theorem C5_single_gated_attempt (p m : ℕ) (p_nodes : List Repro.RNode)
    (p_links m_links : List Repro.RLink) (table : ℕ → Option ℕ) (c : ℕ)
    (cfg : Repro.Config) (pr : Repro.PropRands) :
    (Repro.propagate_one p m p_nodes p_links m_links table c cfg pr).2.2 = 1 ∧
    ((Repro.propagate_one p m p_nodes p_links m_links table c cfg pr).1 =
        (Repro.mutate_one cfg
          (Repro.crossover p_nodes p_links m_links table pr.coin) c pr.mrand).1 ∨
     (Repro.propagate_one p m p_nodes p_links m_links table c cfg pr).1 =
        (Repro.mutate_one cfg (Repro.clone p_nodes p_links) c pr.mrand).1 ∨
     (Repro.propagate_one p m p_nodes p_links m_links table c cfg pr).1 =
        Repro.crossover p_nodes p_links m_links table pr.coin ∨
     (Repro.propagate_one p m p_nodes p_links m_links table c cfg pr).1 =
        Repro.clone p_nodes p_links) := by
  by_cases h1 :
      Repro.should_crossover p m pr.u_crossover p_links m_links table = true <;>
    by_cases h2 : pr.u_mutate < Repro.MUTATION_RATE <;>
      simp [Repro.propagate_one, h1, h2]

/-- C5 (counterexample): a size-24 offspring and a size-4 offspring
both receive exactly one gated mutation attempt from the propagate
kernel body, so the number of attempts is a constant 1 and not
proportional to node_count + link_count. -/
theorem C5_not_proportional :
    (Repro.propagate_one 0 0 pn24W pl20W [] tblNoneW 0 cfgW prNoMutW).2.2 = 1 ∧
    (Repro.propagate_one 0 0 pn2W pl2W [] tblNoneW 0 cfgW prNoMutW).2.2 = 1 ∧
    pn24W.length + pl20W.length = 24 ∧ pn2W.length + pl2W.length = 4 ∧
    (24 : ℕ) ≠ 4 := by
  refine ⟨?_, ?_, by decide, by decide, by decide⟩ <;>
    · unfold Repro.propagate_one
      dsimp only
      split <;> rfl

/-- Distributing a list sum over a pointwise addition. -/
theorem sum_map_add_aux {α M : Type} [AddCommMonoid M] (f g : α → M)
    (l : List α) :
    (l.map fun x => f x + g x).sum = (l.map f).sum + (l.map g).sum := by
  induction l with
  | nil => simp
  | cons x xs ih => simp [ih, add_assoc, add_left_comm]

/-- Swapping the order of a double list sum. -/
theorem sum_sum_comm_aux {α β M : Type} [AddCommMonoid M] (f : α → β → M)
    (ps : List α) (ms : List β) :
    (ps.map fun p => (ms.map fun m => f p m).sum).sum =
      (ms.map fun m => (ps.map fun p => f p m).sum).sum := by
  induction ps with
  | nil => simp
  | cons p ps ih =>
    simp only [List.map_cons, List.sum_cons, ih, sum_map_add_aux]

/-- The inner scan of get_compatibility, written as three sums. -/
theorem compat_foldl_aux (p : Pop.PLink) (ms : List Pop.PLink)
    (acc : ℕ × ℕ × ℚ) :
    ms.foldl (Pop.compat_step p) acc =
      (acc.1 + (ms.map fun m => if p.innov = m.innov then 0 else 1).sum,
       acc.2.1 + (ms.map fun m => if p.innov = m.innov then 1 else 0).sum,
       acc.2.2 + (ms.map fun m =>
         if p.innov = m.innov then |p.weight - m.weight| else 0).sum) := by
  induction ms generalizing acc with
  | nil => simp
  | cons m ms ih =>
    simp only [List.foldl_cons, ih, List.map_cons, List.sum_cons]
    unfold Pop.compat_step
    by_cases h : p.innov = m.innov <;> simp [h, add_assoc]

/-- The full scan of get_compatibility, written as three double sums. -/
theorem compat_counts_eq_aux (ps ms : List Pop.PLink) :
    Pop.compat_counts ps ms =
      ((ps.map fun p =>
          (ms.map fun m => if p.innov = m.innov then 0 else 1).sum).sum,
       (ps.map fun p =>
          (ms.map fun m => if p.innov = m.innov then 1 else 0).sum).sum,
       (ps.map fun p => (ms.map fun m =>
          if p.innov = m.innov then |p.weight - m.weight| else 0).sum).sum) := by
  unfold Pop.compat_counts
  suffices h : ∀ acc : ℕ × ℕ × ℚ,
      ps.foldl (fun acc p_link => ms.foldl (Pop.compat_step p_link) acc) acc =
        (acc.1 + (ps.map fun p =>
            (ms.map fun m => if p.innov = m.innov then 0 else 1).sum).sum,
         acc.2.1 + (ps.map fun p =>
            (ms.map fun m => if p.innov = m.innov then 1 else 0).sum).sum,
         acc.2.2 + (ps.map fun p => (ms.map fun m =>
            if p.innov = m.innov then |p.weight - m.weight| else 0).sum).sum) by
    rw [h (0, 0, 0)]
    simp
  induction ps with
  | nil => simp
  | cons p ps ih =>
    intro acc
    rw [List.foldl_cons, compat_foldl_aux, ih]
    simp [add_assoc]

/-- The pair scan of get_compatibility is symmetric in its two
arguments. -/
theorem compat_counts_comm_aux (ps ms : List Pop.PLink) :
    Pop.compat_counts ps ms = Pop.compat_counts ms ps := by
  rw [compat_counts_eq_aux, compat_counts_eq_aux]
  refine Prod.ext ?_ (Prod.ext ?_ ?_) <;> dsimp only
  · rw [sum_sum_comm_aux]
    refine congrArg List.sum (List.map_congr_left fun m _ => ?_)
    refine congrArg List.sum (List.map_congr_left fun p _ => ?_)
    rcases eq_or_ne p.innov m.innov with h | h
    · simp [h]
    · simp [h, h.symm]
  · rw [sum_sum_comm_aux]
    refine congrArg List.sum (List.map_congr_left fun m _ => ?_)
    refine congrArg List.sum (List.map_congr_left fun p _ => ?_)
    rcases eq_or_ne p.innov m.innov with h | h
    · simp [h]
    · simp [h, h.symm]
  · rw [sum_sum_comm_aux]
    refine congrArg List.sum (List.map_congr_left fun m _ => ?_)
    refine congrArg List.sum (List.map_congr_left fun p _ => ?_)
    rcases eq_or_ne p.innov m.innov with h | h
    · simp [h, abs_sub_comm]
    · simp [h, h.symm]

/-- C9: get_compatibility (src/selection.py lines 15-49) is symmetric:
every (parent link, mate link) pair is visited from both sides with the
same innovation-id test, the weight deltas are absolute values, and the
normalisation uses the maximum of the two link counts. -/
theorem C9_compatibility_symmetric (a b : List Pop.PLink) :
    Pop.get_compatibility a b = Pop.get_compatibility b a := by
  unfold Pop.get_compatibility
  rw [compat_counts_comm_aux, Nat.max_comm]

/-- For a mate-links table that is NONE at every live parent link of a
suffix, the crossover link loop copies exactly the live parent links. -/
theorem crossover_links_table_none_aux (m_links : List Repro.RLink)
    (table : ℕ → Option ℕ) (coin : ℕ → Bool) :
    ∀ (suffix : List Repro.RLink) (k : ℕ),
      (∀ off plk, suffix.get? off = some plk → plk.deleted = false →
        table (k + off) = none) →
      ∀ l ∈ Repro.crossover_links m_links table coin suffix k,
        ∃ pl ∈ suffix, pl.deleted = false ∧ l = pl := by
  intro suffix
  induction suffix with
  | nil =>
    intro k h l hl
    simp [Repro.crossover_links] at hl
  | cons plk rest ih =>
    intro k h l hl
    have hshift : ∀ off plk2, rest.get? off = some plk2 → plk2.deleted = false →
        table (k + 1 + off) = none := by
      intro off plk2 hget hlive2
      have h2 := h (off + 1) plk2 hget hlive2
      have he : k + (off + 1) = k + 1 + off := by omega
      rwa [he] at h2
    by_cases hdel : plk.deleted
    · rw [Repro.crossover_links, if_pos hdel] at hl
      obtain ⟨pl, hmem, hlive, hEq⟩ := ih (k + 1) hshift l hl
      exact ⟨pl, List.mem_cons_of_mem _ hmem, hlive, hEq⟩
    · have hlive : plk.deleted = false := by
        cases hd : plk.deleted
        · rfl
        · exact absurd hd hdel
      have htk : table k = none := by
        have h0 := h 0 plk rfl hlive
        simpa using h0
      rw [Repro.crossover_links, if_neg hdel, htk] at hl
      rcases List.mem_cons.mp hl with hEq | hrest
      · exact ⟨plk, List.mem_cons_self _ _, hlive, hEq⟩
      · obtain ⟨pl, hmem, hlive2, hEq⟩ := ih (k + 1) hshift l hrest
        exact ⟨pl, List.mem_cons_of_mem _ hmem, hlive2, hEq⟩

/-- C6: every link that crossover (src/reproduction.py lines 409-434)
appends to the offspring is one of the parent's live links, so its
innovation id is carried by a live link of the parent and no link whose
id occurs only in the mate is ever introduced.  (The table produced by
Matches.update_mate_links only carries entries for deleted parent
links, so the mate-substitution branch never fires for a live parent
link.) -/
theorem C6_crossover_parent_innovations (p_nodes : List Repro.RNode)
    (p_links m_links : List Repro.RLink) (coin : ℕ → Bool) :
    ∀ l ∈ (Repro.crossover p_nodes p_links m_links
        (Repro.update_mate_links p_links m_links) coin).links,
      ∃ pl ∈ p_links, pl.deleted = false ∧ pl.innov = l.innov := by
  intro l hl
  have htab : ∀ off plk, p_links.get? off = some plk → plk.deleted = false →
      Repro.update_mate_links p_links m_links (0 + off) = none := by
    intro off plk hget hlive
    unfold Repro.update_mate_links
    rw [Nat.zero_add, hget]
    simp [hlive]
  have hmem : l ∈ Repro.crossover_links m_links
      (Repro.update_mate_links p_links m_links) coin p_links 0 := hl
  obtain ⟨pl, hm, hlive, hEq⟩ :=
    crossover_links_table_none_aux m_links _ coin p_links 0 htab l hmem
  exact ⟨pl, hm, hlive, by rw [hEq]⟩

/-- Witness for C6: a concrete crossover output link together with the
live parent link carrying its innovation id. -/
theorem C6_witness :
    lnkCloneW ∈ (Repro.crossover pNodesW pLinksW mLinksW
        (Repro.update_mate_links pLinksW mLinksW) coinW).links ∧
    ∃ pl ∈ pLinksW, pl.deleted = false ∧ pl.innov = lnkCloneW.innov := by
  have hlist : (Repro.crossover pNodesW pLinksW mLinksW
      (Repro.update_mate_links pLinksW mLinksW) coinW).links = [lnkCloneW] := rfl
  have hmem : lnkCloneW ∈ (Repro.crossover pNodesW pLinksW mLinksW
      (Repro.update_mate_links pLinksW mLinksW) coinW).links := by
    rw [hlist]
    exact List.mem_singleton.mpr rfl
  exact ⟨hmem,
    C6_crossover_parent_innovations pNodesW pLinksW mLinksW coinW lnkCloneW hmem⟩

/-- A link endpoint bumped by insert_node never lands on the insertion
slot. -/
theorem bump_ne_aux (p L e : ℕ) (he : e < L) :
    (if p ≤ e ∧ e < L then e + 1 else e) ≠ p := by
  split_ifs <;> omega

/-- Decrementing an endpoint bumped by insert_node restores it. -/
theorem bump_shift_aux (p L e : ℕ) (he : e < L) :
    (if p < (if p ≤ e ∧ e < L then e + 1 else e)
     then (if p ≤ e ∧ e < L then e + 1 else e) - 1
     else (if p ≤ e ∧ e < L then e + 1 else e)) = e := by
  split_ifs <;> omega

/-- delete_node's link fix-up undoes insert_node's link bump when every
endpoint is in range. -/
theorem delete_insert_links_aux (p L : ℕ) :
    ∀ ls : List Pop.PLink, (∀ l ∈ ls, l.from_node < L ∧ l.to_node < L) →
      Pop.delete_node_links p (ls.map fun l =>
        { l with
          from_node :=
            if p ≤ l.from_node ∧ l.from_node < L then l.from_node + 1
            else l.from_node,
          to_node :=
            if p ≤ l.to_node ∧ l.to_node < L then l.to_node + 1
            else l.to_node }) = ls := by
  intro ls h
  induction ls with
  | nil => rfl
  | cons lk rest ih =>
    obtain ⟨hf, ht⟩ := h lk (List.mem_cons_self _ _)
    simp only [List.map_cons, Pop.delete_node_links]
    rw [if_neg (not_or.mpr ⟨bump_ne_aux p L lk.from_node hf,
      bump_ne_aux p L lk.to_node ht⟩)]
    refine congrArg₂ List.cons ?_ (ih fun l hl => h l (List.mem_cons_of_mem _ hl))
    have h3 := bump_shift_aux p L lk.from_node hf
    have h4 := bump_shift_aux p L lk.to_node ht
    cases lk
    simp_all

/-- C7: inserting a node at position p with insert_node and then
deleting the node at position p with delete_node (src/population.py
lines 178-242) restores the original genome — node sequence, node
count, link count, and every link endpoint. -/
theorem C7_insert_delete_round_trip (g : Pop.PGenome) (p : ℕ)
    (node : Pop.PNode) (h1 : p ≤ g.nodes.length)
    (h2 : g.nodes.length < MAX_NETWORK_SIZE)
    (h3 : ∀ l ∈ g.links, l.from_node < g.nodes.length ∧
      l.to_node < g.nodes.length) :
    Pop.delete_node (Pop.insert_node g p node) p = g := by
  obtain ⟨ns, ls⟩ := g
  simp only [Pop.insert_node] at *
  rw [if_pos h1]
  unfold Pop.delete_node
  have hlen : (ns.take p).length = p := by
    simp [List.length_take]
    omega
  have hnodes : ((ns.take p ++ node :: ns.drop p).take p ++
      (ns.take p ++ node :: ns.drop p).drop (p + 1)) = ns := by
    rw [List.take_left' hlen]
    have hsplit : ns.take p ++ node :: ns.drop p =
        (ns.take p ++ [node]) ++ ns.drop p := by simp
    rw [hsplit, List.drop_left' (by simp [hlen])]
    exact List.take_append_drop p ns
  have hlinks := delete_insert_links_aux p ns.length ls h3
  simp only [hnodes, hlinks]

/-- Witness for C7: the round trip evaluated on a concrete three-node,
two-link genome at position 1. -/
theorem C7_witness :
    (1 ≤ gW7.nodes.length) ∧ (gW7.nodes.length < MAX_NETWORK_SIZE) ∧
    Pop.delete_node (Pop.insert_node gW7 1 nodeW7) 1 = gW7 :=
  ⟨by decide, by decide,
   C7_insert_delete_round_trip gW7 1 nodeW7 (by decide) (by decide) (by decide)⟩

/-- The delete_node link loop keeps exactly the links not touching the
deleted position, decrementing every endpoint that exceeded it. -/
theorem delete_node_links_eq_aux (p : ℕ) (ls : List Pop.PLink) :
    Pop.delete_node_links p ls = ls.filterMap fun l =>
      if l.from_node = p ∨ l.to_node = p then none
      else some { l with
        from_node := if p < l.from_node then l.from_node - 1 else l.from_node,
        to_node := if p < l.to_node then l.to_node - 1 else l.to_node } := by
  induction ls with
  | nil => rfl
  | cons lk rest ih =>
    by_cases h : lk.from_node = p ∨ lk.to_node = p
    · simp only [Pop.delete_node_links, List.filterMap_cons, if_pos h, ih]
    · simp only [Pop.delete_node_links, List.filterMap_cons, if_neg h, ih]

/-- C8: delete_node (src/population.py lines 211-242) removes the node
at p (the node count drops by one, nodes before p stay, nodes after p
shift left by one), drops exactly the links whose original endpoints
equal p — including links that shift into the just-vacated slot during
the scan — and decrements every surviving endpoint that exceeded p, so
no surviving link references the deleted node. -/
theorem C8_delete_node_spec (g : Pop.PGenome) (p : ℕ)
    (h : p < g.nodes.length) :
    ((Pop.delete_node g p).nodes.length + 1 = g.nodes.length) ∧
    ((Pop.delete_node g p).links = g.links.filterMap fun l =>
      if l.from_node = p ∨ l.to_node = p then none
      else some { l with
        from_node := if p < l.from_node then l.from_node - 1 else l.from_node,
        to_node := if p < l.to_node then l.to_node - 1 else l.to_node }) ∧
    (∀ k, k < p →
      (Pop.delete_node g p).nodes.getD k default = g.nodes.getD k default) ∧
    (∀ k, p ≤ k → k + 1 < g.nodes.length →
      (Pop.delete_node g p).nodes.getD k default =
        g.nodes.getD (k + 1) default) ∧
    (∀ l ∈ (Pop.delete_node g p).links, ∃ l0 ∈ g.links,
      l0.from_node ≠ p ∧ l0.to_node ≠ p ∧
      l = { l0 with
        from_node := if p < l0.from_node then l0.from_node - 1 else l0.from_node,
        to_node := if p < l0.to_node then l0.to_node - 1 else l0.to_node }) := by
  refine ⟨?_, delete_node_links_eq_aux p g.links, ?_, ?_, ?_⟩
  · simp only [Pop.delete_node, List.length_append, List.length_take,
      List.length_drop]
    omega
  · intro k hk
    have hk2 : k < (g.nodes.take p).length := by
      simp [List.length_take]
      omega
    have hk3 : k < g.nodes.length := by omega
    rw [Pop.delete_node]
    dsimp only
    rw [List.getD_append _ _ _ _ hk2, List.getD_eq_getElem _ _ hk2,
      List.getD_eq_getElem _ _ hk3, List.getElem_take]
  · intro k hk hk1
    have hlen : (g.nodes.take p).length = p := by
      simp [List.length_take]
      omega
    rw [Pop.delete_node]
    dsimp only
    rw [List.getD_append_right _ _ _ _ (by omega), hlen]
    have hd : k - p < (g.nodes.drop (p + 1)).length := by
      simp [List.length_drop]
      omega
    rw [List.getD_eq_getElem _ _ hd, List.getD_eq_getElem _ _ hk1,
      List.getElem_drop]
    congr 1
    omega
  · intro l hl
    rw [Pop.delete_node] at hl
    dsimp only at hl
    rw [delete_node_links_eq_aux] at hl
    obtain ⟨l0, hmem, hout⟩ := List.mem_filterMap.mp hl
    by_cases hc : l0.from_node = p ∨ l0.to_node = p
    · rw [if_pos hc] at hout
      cases hout
    · rw [if_neg hc] at hout
      push_neg at hc
      exact ⟨l0, hmem, hc.1, hc.2, (Option.some_inj.mp hout).symm⟩

/-- Witness for C8: delete_node evaluated at position 1 of a concrete
three-node genome. -/
theorem C8_witness :
    (1 < gW8.nodes.length) ∧
    (Pop.delete_node gW8 1).nodes.length + 1 = gW8.nodes.length :=
  ⟨by decide, (C8_delete_node_spec gW8 1 (by decide)).1⟩

/-- restore_one only writes the current buffer. -/
theorem restore_one_prev_aux (st : Pop.PopState) (e : ℕ × ℕ) (b : Bool)
    (hb : b ≠ st.buffer_index) :
    (∀ sp i x, (Pop.restore_one st e).nodes b sp i x = st.nodes b sp i x) ∧
    (∀ sp i x, (Pop.restore_one st e).links b sp i x = st.links b sp i x) ∧
    (∀ sp i, (Pop.restore_one st e).node_lens b sp i = st.node_lens b sp i) ∧
    (∀ sp i, (Pop.restore_one st e).link_lens b sp i = st.link_lens b sp i) := by
  refine ⟨fun sp i x => ?_, fun sp i x => ?_, fun sp i => ?_, fun sp i => ?_⟩ <;>
    · simp only [Pop.restore_one]
      rw [if_neg (fun hc => hb hc.1)]

/-- restore_one leaves every unlisted individual untouched. -/
theorem restore_one_frame_aux (st : Pop.PopState) (e : ℕ × ℕ) (sp i : ℕ)
    (hne : ¬(sp = e.1 ∧ i = e.2)) :
    (∀ b x, (Pop.restore_one st e).nodes b sp i x = st.nodes b sp i x) ∧
    (∀ b x, (Pop.restore_one st e).links b sp i x = st.links b sp i x) ∧
    (∀ b, (Pop.restore_one st e).node_lens b sp i = st.node_lens b sp i) ∧
    (∀ b, (Pop.restore_one st e).link_lens b sp i = st.link_lens b sp i) ∧
    (Pop.restore_one st e).match_records sp i = st.match_records sp i := by
  refine ⟨fun b x => ?_, fun b x => ?_, fun b => ?_, fun b => ?_, ?_⟩
  · simp only [Pop.restore_one]
    rw [if_neg (fun hc => hne ⟨hc.2.1, hc.2.2.1⟩)]
  · simp only [Pop.restore_one]
    rw [if_neg (fun hc => hne ⟨hc.2.1, hc.2.2.1⟩)]
  · simp only [Pop.restore_one]
    rw [if_neg (fun hc => hne ⟨hc.2.1, hc.2.2⟩)]
  · simp only [Pop.restore_one]
    rw [if_neg (fun hc => hne ⟨hc.2.1, hc.2.2⟩)]
  · simp only [Pop.restore_one]
    rw [if_neg hne]

/-- restore_one performs the documented writes for its own elite. -/
theorem restore_one_target_aux (st : Pop.PopState) (e : ℕ × ℕ) :
    (∀ x, x < MAX_NETWORK_SIZE →
      (Pop.restore_one st e).nodes st.buffer_index e.1 e.2 x =
        st.nodes (!st.buffer_index) e.1 e.2 x ∧
      (Pop.restore_one st e).links st.buffer_index e.1 e.2 x =
        st.links (!st.buffer_index) e.1 e.2 x) ∧
    (Pop.restore_one st e).node_lens st.buffer_index e.1 e.2 =
      st.node_lens (!st.buffer_index) e.1 e.2 ∧
    (Pop.restore_one st e).link_lens st.buffer_index e.1 e.2 =
      st.link_lens (!st.buffer_index) e.1 e.2 ∧
    (Pop.restore_one st e).match_records e.1 e.2 = ((e.2 : ℤ), NONE) := by
  refine ⟨fun x hx => ⟨?_, ?_⟩, ?_, ?_, ?_⟩ <;>
    · simp only [Pop.restore_one]
      rw [if_pos]
      constructor <;> trivial

/-- restore_elites does not change the buffer index. -/
theorem restore_elites_buffer_aux (elites : List (ℕ × ℕ)) :
    ∀ st : Pop.PopState,
      (Pop.restore_elites st elites).buffer_index = st.buffer_index := by
  induction elites with
  | nil => intro st; rfl
  | cons e rest ih => intro st; exact ih (Pop.restore_one st e)

/-- restore_elites leaves every unlisted individual untouched. -/
theorem restore_elites_frame_aux (elites : List (ℕ × ℕ)) :
    ∀ (st : Pop.PopState) (sp i : ℕ), (sp, i) ∉ elites →
      (∀ b x, (Pop.restore_elites st elites).nodes b sp i x = st.nodes b sp i x) ∧
      (∀ b x, (Pop.restore_elites st elites).links b sp i x = st.links b sp i x) ∧
      (∀ b, (Pop.restore_elites st elites).node_lens b sp i = st.node_lens b sp i) ∧
      (∀ b, (Pop.restore_elites st elites).link_lens b sp i = st.link_lens b sp i) ∧
      (Pop.restore_elites st elites).match_records sp i = st.match_records sp i := by
  induction elites with
  | nil =>
    intro st sp i _
    exact ⟨fun _ _ => rfl, fun _ _ => rfl, fun _ => rfl, fun _ => rfl, rfl⟩
  | cons e rest ih =>
    intro st sp i hmem
    have hne : ¬(sp = e.1 ∧ i = e.2) := by
      intro hc
      exact hmem (by
        rw [List.mem_cons]
        left
        rw [hc.1, hc.2])
    have hrest : (sp, i) ∉ rest := fun hc =>
      hmem (List.mem_cons_of_mem _ hc)
    obtain ⟨o1, o2, o3, o4, o5⟩ := restore_one_frame_aux st e sp i hne
    obtain ⟨f1, f2, f3, f4, f5⟩ := ih (Pop.restore_one st e) sp i hrest
    exact ⟨fun b x => (f1 b x).trans (o1 b x),
      fun b x => (f2 b x).trans (o2 b x),
      fun b => (f3 b).trans (o3 b), fun b => (f4 b).trans (o4 b),
      f5.trans o5⟩

/-- restore_elites performs the documented writes for every listed
elite. -/
theorem restore_elites_target_aux (elites : List (ℕ × ℕ)) :
    ∀ (st : Pop.PopState) (sp i : ℕ), (sp, i) ∈ elites →
      (∀ x, x < MAX_NETWORK_SIZE →
        (Pop.restore_elites st elites).nodes st.buffer_index sp i x =
          st.nodes (!st.buffer_index) sp i x ∧
        (Pop.restore_elites st elites).links st.buffer_index sp i x =
          st.links (!st.buffer_index) sp i x) ∧
      (Pop.restore_elites st elites).node_lens st.buffer_index sp i =
        st.node_lens (!st.buffer_index) sp i ∧
      (Pop.restore_elites st elites).link_lens st.buffer_index sp i =
        st.link_lens (!st.buffer_index) sp i ∧
      (Pop.restore_elites st elites).match_records sp i = ((i : ℤ), NONE) := by
  induction elites with
  | nil =>
    intro st sp i hmem
    cases hmem
  | cons e rest ih =>
    intro st sp i hmem
    have hbne : (!st.buffer_index) ≠ st.buffer_index := by
      cases st.buffer_index <;> simp
    obtain ⟨p1, p2, p3, p4⟩ := restore_one_prev_aux st e (!st.buffer_index) hbne
    by_cases hrest : (sp, i) ∈ rest
    · obtain ⟨t1, t2, t3, t4⟩ := ih (Pop.restore_one st e) sp i hrest
      have hb : (Pop.restore_one st e).buffer_index = st.buffer_index := rfl
      refine ⟨fun x hx => ?_, ?_, ?_, ?_⟩
      · obtain ⟨t1n, t1l⟩ := t1 x hx
        rw [hb] at t1n t1l
        exact ⟨t1n.trans (p1 sp i x), t1l.trans (p2 sp i x)⟩
      · rw [hb] at t2
        exact t2.trans (p3 sp i)
      · rw [hb] at t3
        exact t3.trans (p4 sp i)
      · exact t4
    · have heq : (sp, i) = e := by
        rcases List.mem_cons.mp hmem with h | h
        · exact h
        · exact absurd h hrest
      have hsp : sp = e.1 := by rw [← heq]
      have hi : i = e.2 := by rw [← heq]
      subst hsp
      subst hi
      obtain ⟨w1, w2, w3, w4⟩ := restore_one_target_aux st e
      obtain ⟨f1, f2, f3, f4, f5⟩ :=
        restore_elites_frame_aux rest (Pop.restore_one st e) e.1 e.2
          (by
            intro hc
            exact hrest (by
              have : ((e.1, e.2) : ℕ × ℕ) = e := rfl
              rw [this]
              exact hc))
      refine ⟨fun x hx => ?_, ?_, ?_, ?_⟩
      · obtain ⟨w1n, w1l⟩ := w1 x hx
        exact ⟨(f1 st.buffer_index x).trans w1n, (f2 st.buffer_index x).trans w1l⟩
      · exact (f3 st.buffer_index).trans w2
      · exact (f4 st.buffer_index).trans w3
      · exact f5.trans w4

/-- C10: restore_elites (src/population.py lines 299-315) touches, in
the current buffer, only the listed (sub_pop, individual) slots: every
unlisted individual keeps its nodes, links, length counters and match
record, while every listed elite has all MAX_NETWORK_SIZE node and link
slots and both length counters copied from the previous buffer and its
match record set to (own index, NONE). -/
theorem C10_restore_elites_frame (st : Pop.PopState)
    (elites : List (ℕ × ℕ)) (sp i : ℕ) :
    ((sp, i) ∉ elites →
      (∀ b x, (Pop.restore_elites st elites).nodes b sp i x = st.nodes b sp i x) ∧
      (∀ b x, (Pop.restore_elites st elites).links b sp i x = st.links b sp i x) ∧
      (∀ b, (Pop.restore_elites st elites).node_lens b sp i = st.node_lens b sp i) ∧
      (∀ b, (Pop.restore_elites st elites).link_lens b sp i = st.link_lens b sp i) ∧
      (Pop.restore_elites st elites).match_records sp i = st.match_records sp i) ∧
    ((sp, i) ∈ elites →
      (∀ x, x < MAX_NETWORK_SIZE →
        (Pop.restore_elites st elites).nodes st.buffer_index sp i x =
          st.nodes (!st.buffer_index) sp i x ∧
        (Pop.restore_elites st elites).links st.buffer_index sp i x =
          st.links (!st.buffer_index) sp i x) ∧
      (Pop.restore_elites st elites).node_lens st.buffer_index sp i =
        st.node_lens (!st.buffer_index) sp i ∧
      (Pop.restore_elites st elites).link_lens st.buffer_index sp i =
        st.link_lens (!st.buffer_index) sp i ∧
      (Pop.restore_elites st elites).match_records sp i = ((i : ℤ), NONE)) :=
  ⟨restore_elites_frame_aux elites st sp i,
   restore_elites_target_aux elites st sp i⟩

/-- Witness for C10: one listed elite (0,1) in a concrete population
state has its match record set and its node length counter copied from
the previous buffer. -/
theorem C10_witness :
    ((0, 1) ∈ elitesW) ∧
    (Pop.restore_elites stW elitesW).match_records 0 1 = ((1 : ℤ), NONE) ∧
    (Pop.restore_elites stW elitesW).node_lens stW.buffer_index 0 1 =
      stW.node_lens (!stW.buffer_index) 0 1 := by
  have h := (C10_restore_elites_frame stW elitesW 0 1).2 (by decide)
  exact ⟨by decide, h.2.2.2, h.2.1⟩

/-- Bounds of rand_range when the range is non-empty. -/
theorem rand_range_bounds_aux (mn mx r : ℕ) (h : mn < mx) :
    mn ≤ Repro.rand_range mn mx r ∧ Repro.rand_range mn mx r < mx := by
  unfold Repro.rand_range
  have h2 : r % (mx - mn) < mx - mn := Nat.mod_lt _ (by omega)
  omega

/-- first_deleted_at never exceeds the list length. -/
theorem first_deleted_le_aux :
    ∀ xs : List Repro.RNode, Repro.first_deleted_at xs ≤ xs.length := by
  intro xs
  induction xs with
  | nil => simp [Repro.first_deleted_at]
  | cons x rest ih =>
    rw [Repro.first_deleted_at]
    split
    · simp
    · simpa using ih

/-- When first_deleted_at points inside the list, it points at a deleted
node. -/
theorem first_deleted_deleted_aux :
    ∀ xs : List Repro.RNode, Repro.first_deleted_at xs < xs.length →
      (xs.getD (Repro.first_deleted_at xs) default).deleted = true := by
  intro xs
  induction xs with
  | nil => intro h; simp at h
  | cons x rest ih =>
    intro h
    rw [Repro.first_deleted_at]
    rw [Repro.first_deleted_at] at h
    by_cases hx : x.deleted
    · simp [hx]
    · rw [if_neg hx] at h ⊢
      have hlt : Repro.first_deleted_at rest < rest.length := by
        simp at h
        omega
      simpa using ih hlt

/-- getD after drop reads the shifted position. -/
theorem getD_drop_aux {α : Type} [Inhabited α] :
    ∀ (n : ℕ) (l : List α) (k : ℕ),
      (l.drop n).getD k default = l.getD (n + k) default := by
  intro n
  induction n with
  | zero => intro l k; simp
  | succ n ih =>
    intro l k
    cases l with
    | nil => simp
    | cons x xs =>
      rw [List.drop_succ_cons, ih xs k]
      have he : n + 1 + k = (n + k) + 1 := by omega
      rw [he, List.getD_cons_succ]

/-- The endpoint map of insert_node is strictly monotone away from the
absorbing slot. -/
theorem bump_lt_aux (n d a b : ℕ) (hab : a < b) (had : a ≠ d) :
    (if n ≤ a ∧ a ≤ d then a + 1 else a) <
      (if n ≤ b ∧ b ≤ d then b + 1 else b) := by
  split_ifs <;> omega

/-- A node position holding a live node is never the absorbing slot of
insert_node. -/
theorem from_ne_d_aux (g : Repro.RGenome) (n e : ℕ)
    (heL : e < g.nodes.length)
    (helive : (g.nodes.getD e default).deleted = false) :
    e ≠ n + Repro.first_deleted_at (g.nodes.drop n) := by
  intro hEq
  have hdL : n + Repro.first_deleted_at (g.nodes.drop n) < g.nodes.length := by
    omega
  have hlen : Repro.first_deleted_at (g.nodes.drop n) <
      (g.nodes.drop n).length := by
    rw [List.length_drop]
    omega
  have hdel := first_deleted_deleted_aux (g.nodes.drop n) hlen
  rw [getD_drop_aux] at hdel
  rw [hEq] at helive
  rw [helive] at hdel
  cases hdel

/-- insert_node keeps every live link ordered, provided no live link
starts at the absorbing slot. -/
theorem insert_node_live_sorted_aux (g : Repro.RGenome) (n : ℕ)
    (node : Repro.RNode)
    (hall : ∀ l ∈ g.links, l.from_node < l.to_node)
    (hfored : ∀ l ∈ g.links, l.deleted = false →
      l.from_node ≠ n + Repro.first_deleted_at (g.nodes.drop n)) :
    ∀ l ∈ (Repro.insert_node g n node).links, l.deleted = false →
      l.from_node < l.to_node := by
  intro l hl hld
  rw [Repro.insert_node] at hl
  dsimp only at hl
  obtain ⟨l0, hl0, hEq⟩ := List.mem_map.mp hl
  have hld0 : l0.deleted = false := by
    rw [← hEq] at hld
    exact hld
  rw [← hEq]
  exact bump_lt_aux n (n + Repro.first_deleted_at (g.nodes.drop n))
    l0.from_node l0.to_node (hall l0 hl0) (hfored l0 hl0 hld0)

/-- Explicit form of add_random_link in the non-recurrent case: it
appends one fresh link whose endpoints satisfy the ordering and range
invariants. -/
theorem add_random_link_ex_aux (cfg : Repro.Config) (g : Repro.RGenome)
    (c r1 r2 : ℕ) (w : ℚ) (hrec : cfg.is_recurrent = false)
    (hni : 1 ≤ cfg.num_inputs) (hL : cfg.num_inputs + 1 ≤ g.nodes.length) :
    ∃ f t : ℕ, f < t ∧ t < g.nodes.length ∧ cfg.num_inputs ≤ t ∧
      Repro.add_random_link cfg g c r1 r2 w =
        ({ g with links := g.links ++ [⟨f, t, w, c, false⟩] }, c + 1) := by
  obtain ⟨hf0, hf1⟩ :=
    rand_range_bounds_aux 0 (g.nodes.length - 1) r1 (by omega)
  have hmaxlt : max (Repro.rand_range 0 (g.nodes.length - 1) r1 + 1)
      cfg.num_inputs < g.nodes.length :=
    Nat.max_lt.mpr ⟨by omega, by omega⟩
  obtain ⟨ht0, ht1⟩ := rand_range_bounds_aux
    (max (Repro.rand_range 0 (g.nodes.length - 1) r1 + 1) cfg.num_inputs)
    g.nodes.length r2 hmaxlt
  refine ⟨Repro.rand_range 0 (g.nodes.length - 1) r1,
    Repro.rand_range
      (max (Repro.rand_range 0 (g.nodes.length - 1) r1 + 1) cfg.num_inputs)
      g.nodes.length r2, ?_, ht1, ?_, ?_⟩
  · have := le_max_left (Repro.rand_range 0 (g.nodes.length - 1) r1 + 1)
      cfg.num_inputs
    omega
  · have := le_max_right (Repro.rand_range 0 (g.nodes.length - 1) r1 + 1)
      cfg.num_inputs
    omega
  · unfold Repro.add_random_link
    rw [hrec]
    rfl

/-- add_random_link keeps every live link ordered. -/
theorem add_random_link_live_sorted_aux (cfg : Repro.Config)
    (g : Repro.RGenome) (c r1 r2 : ℕ) (w : ℚ)
    (hrec : cfg.is_recurrent = false) (hni : 1 ≤ cfg.num_inputs)
    (hL : cfg.num_inputs + 1 ≤ g.nodes.length)
    (hall : ∀ l ∈ g.links, l.from_node < l.to_node) :
    ∀ l ∈ (Repro.add_random_link cfg g c r1 r2 w).1.links,
      l.deleted = false → l.from_node < l.to_node := by
  obtain ⟨f, t, hft, htL, hnit, heq⟩ :=
    add_random_link_ex_aux cfg g c r1 r2 w hrec hni hL
  rw [heq]
  intro l hl _
  rcases List.mem_append.mp hl with h | h
  · exact hall l h
  · rw [List.mem_singleton.mp h]
    exact hft

/-- Unfolded form of add_random_node in the non-recurrent case with a
non-empty link list: split the chosen link and add the two replacement
links around the freshly inserted node. -/
theorem add_random_node_eq_aux (cfg : Repro.Config) (g : Repro.RGenome)
    (c rf rt : ℕ) (wfb : ℚ) (rl ra : ℕ) (ub ug : ℚ) (rp : ℕ)
    (hrec : cfg.is_recurrent = false) (hne : ¬ g.links.length = 0) :
    Repro.add_random_node cfg g c rf rt wfb rl ra ub ug rp =
      (let lidx := Repro.rand_range 0 g.links.length rl
       let old_link := g.links.getD lidx default
       let node := Repro.make_random_node Repro.NodeKinds_HIDDEN ra ub ug
       let npos := Repro.rand_range
         (max old_link.from_node (cfg.num_inputs - 1))
         (min old_link.to_node (g.nodes.length - cfg.num_outputs)) rp + 1
       let g1 := Repro.insert_node g npos node
       let g2 := { g1 with
         links := g1.links.set lidx
           ({ g1.links.getD lidx default with deleted := true }) }
       let old2 := g2.links.getD lidx default
       ({ g2 with links :=
          (g2.links ++ [⟨old2.from_node, npos, old2.weight, c, false⟩]) ++
            [⟨npos, old2.to_node, 1, c + 1, false⟩] }, c + 2)) := by
  unfold Repro.add_random_node Repro.new_link
  rw [if_neg hne, hrec]
  rfl

/-- Core of add_random_node: flagging the split link and appending the
two replacement links around the inserted node keeps every live link
ordered. -/
theorem split_links_sorted_aux (g : Repro.RGenome) (lidx npos : ℕ)
    (node : Repro.RNode) (c : ℕ)
    (hlidx : lidx < g.links.length)
    (hofn : (g.links.getD lidx default).from_node < npos)
    (hnot : npos ≤ (g.links.getD lidx default).to_node)
    (hall : ∀ l ∈ g.links, l.from_node < l.to_node)
    (hfored : ∀ l ∈ g.links, l.deleted = false →
      l.from_node ≠ npos + Repro.first_deleted_at (g.nodes.drop npos)) :
    ∀ lk ∈ (let g1 := Repro.insert_node g npos node
            let g2 := { g1 with
              links := g1.links.set lidx
                ({ g1.links.getD lidx default with deleted := true }) }
            let old2 := g2.links.getD lidx default
            ((g2.links ++ [⟨old2.from_node, npos, old2.weight, c, false⟩]) ++
              [⟨npos, old2.to_node, 1, c + 1, false⟩])),
      lk.deleted = false → lk.from_node < lk.to_node := by
  intro lk hlk hld
  dsimp only at hlk
  have hlen1 : (Repro.insert_node g npos node).links.length =
      g.links.length := by
    have h : (Repro.insert_node g npos node).links =
        g.links.map (fun l =>
          { l with
            from_node :=
              if npos ≤ l.from_node ∧ l.from_node ≤
                  npos + Repro.first_deleted_at (g.nodes.drop npos)
              then l.from_node + 1 else l.from_node,
            to_node :=
              if npos ≤ l.to_node ∧ l.to_node ≤
                  npos + Repro.first_deleted_at (g.nodes.drop npos)
              then l.to_node + 1 else l.to_node }) := rfl
    rw [h, List.length_map]
  have hg1getD : (Repro.insert_node g npos node).links.getD lidx default =
      (let l := g.links.getD lidx default
       { l with
         from_node :=
           if npos ≤ l.from_node ∧ l.from_node ≤
               npos + Repro.first_deleted_at (g.nodes.drop npos)
           then l.from_node + 1 else l.from_node,
         to_node :=
           if npos ≤ l.to_node ∧ l.to_node ≤
               npos + Repro.first_deleted_at (g.nodes.drop npos)
           then l.to_node + 1 else l.to_node }) := by
    rw [List.getD_eq_getElem _ _ (by rw [hlen1]; exact hlidx)]
    have h : (Repro.insert_node g npos node).links =
        g.links.map (fun l =>
          { l with
            from_node :=
              if npos ≤ l.from_node ∧ l.from_node ≤
                  npos + Repro.first_deleted_at (g.nodes.drop npos)
              then l.from_node + 1 else l.from_node,
            to_node :=
              if npos ≤ l.to_node ∧ l.to_node ≤
                  npos + Repro.first_deleted_at (g.nodes.drop npos)
              then l.to_node + 1 else l.to_node }) := rfl
    rw [List.getElem_of_eq h, List.getElem_map,
      ← List.getD_eq_getElem g.links default hlidx]
  have hsetlen : ((Repro.insert_node g npos node).links.set lidx
      ({ (Repro.insert_node g npos node).links.getD lidx default with
         deleted := true })).length = g.links.length := by
    rw [List.length_set, hlen1]
  have hold2 : ((Repro.insert_node g npos node).links.set lidx
      ({ (Repro.insert_node g npos node).links.getD lidx default with
         deleted := true })).getD lidx default =
      { (Repro.insert_node g npos node).links.getD lidx default with
        deleted := true } := by
    rw [List.getD_eq_getElem _ _ (by rw [hsetlen]; exact hlidx)]
    exact List.getElem_set_self _
  rcases List.mem_append.mp hlk with hl2 | hlB
  · rcases List.mem_append.mp hl2 with hlg2 | hlA
    · rcases List.mem_or_eq_of_mem_set hlg2 with hmem1 | hEqset
      · exact insert_node_live_sorted_aux g npos node hall hfored lk hmem1 hld
      · rw [hEqset] at hld
        simp at hld
    · rw [List.mem_singleton.mp hlA]
      rw [hold2, hg1getD]
      dsimp only
      rw [if_neg (by omega)]
      exact hofn
  · rw [List.mem_singleton.mp hlB]
    rw [hold2, hg1getD]
    dsimp only
    have hd : npos ≤ npos + Repro.first_deleted_at (g.nodes.drop npos) :=
      Nat.le_add_right _ _
    split_ifs <;> omega

/-- add_random_node with a non-empty link list keeps every live link
ordered. -/
theorem add_random_node_tail_aux (cfg : Repro.Config) (g : Repro.RGenome)
    (c rf rt : ℕ) (wfb : ℚ) (rl ra : ℕ) (ub ug : ℚ) (rp : ℕ)
    (hrec : cfg.is_recurrent = false) (hni : 1 ≤ cfg.num_inputs)
    (hno : cfg.num_outputs = 1) (hsz : cfg.num_inputs + 1 ≤ g.nodes.length)
    (hne : ¬ g.links.length = 0)
    (hall3 : ∀ l ∈ g.links, l.from_node < l.to_node ∧
      l.to_node < g.nodes.length ∧ cfg.num_inputs ≤ l.to_node)
    (hlivefrom : ∀ l ∈ g.links, l.deleted = false →
      (g.nodes.getD l.from_node default).deleted = false ∨
      l.from_node =
        (g.links.getD (Repro.rand_range 0 g.links.length rl) default).from_node) :
    ∀ lk ∈ (Repro.add_random_node cfg g c rf rt wfb rl ra ub ug rp).1.links,
      lk.deleted = false → lk.from_node < lk.to_node := by
  rw [add_random_node_eq_aux cfg g c rf rt wfb rl ra ub ug rp hrec hne]
  have hlen : 0 < g.links.length := Nat.pos_of_ne_zero hne
  obtain ⟨-, hlidxlt⟩ := rand_range_bounds_aux 0 g.links.length rl hlen
  have holdmem :
      g.links.getD (Repro.rand_range 0 g.links.length rl) default ∈ g.links := by
    rw [List.getD_eq_getElem _ _ hlidxlt]
    exact List.getElem_mem _
  obtain ⟨h1, h2, h3⟩ := hall3 _ holdmem
  have hrange : max
      (g.links.getD (Repro.rand_range 0 g.links.length rl) default).from_node
      (cfg.num_inputs - 1) <
      min (g.links.getD (Repro.rand_range 0 g.links.length rl) default).to_node
        (g.nodes.length - cfg.num_outputs) := by
    rw [hno]
    exact Nat.max_lt.mpr
      ⟨lt_min_iff.mpr ⟨h1, by omega⟩, lt_min_iff.mpr ⟨by omega, by omega⟩⟩
  obtain ⟨hrlo, hrhi⟩ := rand_range_bounds_aux _ _ rp hrange
  have h4 := lt_min_iff.mp hrhi
  have hofn :
      (g.links.getD (Repro.rand_range 0 g.links.length rl) default).from_node <
      Repro.rand_range
        (max (g.links.getD (Repro.rand_range 0 g.links.length rl) default).from_node
          (cfg.num_inputs - 1))
        (min (g.links.getD (Repro.rand_range 0 g.links.length rl) default).to_node
          (g.nodes.length - cfg.num_outputs)) rp + 1 := by
    have h5 := le_max_left
      (g.links.getD (Repro.rand_range 0 g.links.length rl) default).from_node
      (cfg.num_inputs - 1)
    omega
  have hnot : Repro.rand_range
      (max (g.links.getD (Repro.rand_range 0 g.links.length rl) default).from_node
        (cfg.num_inputs - 1))
      (min (g.links.getD (Repro.rand_range 0 g.links.length rl) default).to_node
        (g.nodes.length - cfg.num_outputs)) rp + 1 ≤
      (g.links.getD (Repro.rand_range 0 g.links.length rl) default).to_node := by
    omega
  have hfored : ∀ l ∈ g.links, l.deleted = false →
      l.from_node ≠ (Repro.rand_range
        (max (g.links.getD (Repro.rand_range 0 g.links.length rl) default).from_node
          (cfg.num_inputs - 1))
        (min (g.links.getD (Repro.rand_range 0 g.links.length rl) default).to_node
          (g.nodes.length - cfg.num_outputs)) rp + 1) +
        Repro.first_deleted_at (g.nodes.drop (Repro.rand_range
          (max (g.links.getD (Repro.rand_range 0 g.links.length rl) default).from_node
            (cfg.num_inputs - 1))
          (min (g.links.getD (Repro.rand_range 0 g.links.length rl) default).to_node
            (g.nodes.length - cfg.num_outputs)) rp + 1)) := by
    intro l0 h0 hld0
    rcases hlivefrom l0 h0 hld0 with hn | hEqf
    · exact from_ne_d_aux g _ l0.from_node
        (lt_trans (hall3 l0 h0).1 (hall3 l0 h0).2.1) hn
    · rw [hEqf]
      omega
  exact split_links_sorted_aux g _ _ _ c hlidxlt hofn hnot
    (fun l h => (hall3 l h).1) hfored

/-- add_random_node keeps every live link ordered, from any starting
genome satisfying the link invariants. -/
theorem add_random_node_live_sorted_aux (cfg : Repro.Config)
    (g0 : Repro.RGenome) (c0 rf rt : ℕ) (wfb : ℚ) (rl ra : ℕ)
    (ub ug : ℚ) (rp : ℕ)
    (hrec : cfg.is_recurrent = false) (hni : 1 ≤ cfg.num_inputs)
    (hno : cfg.num_outputs = 1) (hsz : cfg.num_inputs + 1 ≤ g0.nodes.length)
    (hall3 : ∀ l ∈ g0.links, l.from_node < l.to_node ∧
      l.to_node < g0.nodes.length ∧ cfg.num_inputs ≤ l.to_node)
    (hlive : ∀ l ∈ g0.links, l.deleted = false →
      (g0.nodes.getD l.from_node default).deleted = false) :
    ∀ lk ∈ (Repro.add_random_node cfg g0 c0 rf rt wfb rl ra ub ug rp).1.links,
      lk.deleted = false → lk.from_node < lk.to_node := by
  by_cases hz : g0.links.length = 0
  · obtain ⟨f, t, hft, htL, hnit, heqlink⟩ :=
      add_random_link_ex_aux cfg g0 c0 rf rt wfb hrec hni hsz
    have hnil : g0.links = [] := List.length_eq_zero.mp hz
    have hkey : Repro.add_random_node cfg g0 c0 rf rt wfb rl ra ub ug rp =
        Repro.add_random_node cfg
          { g0 with links := g0.links ++ [⟨f, t, wfb, c0, false⟩] }
          (c0 + 1) rf rt wfb rl ra ub ug rp := by
      conv_lhs => rw [Repro.add_random_node]
      conv_rhs => rw [Repro.add_random_node]
      rw [if_pos hz, heqlink,
        if_neg (show ¬ (({ g0 with
            links := g0.links ++ [(⟨f, t, wfb, c0, false⟩ : Repro.RLink)] } :
            Repro.RGenome).links.length = 0) by simp)]
    rw [hkey]
    refine add_random_node_tail_aux cfg _ (c0 + 1) rf rt wfb rl ra ub ug rp
      hrec hni hno hsz (by simp) ?_ ?_
    · intro l hl
      rw [hnil] at hl
      simp at hl
      rw [hl]
      exact ⟨hft, htL, hnit⟩
    · intro l hl hld
      right
      rw [hnil] at hl ⊢
      simp at hl
      rw [hl]
      have hr0 : Repro.rand_range 0
          (({ g0 with links := [] ++ [(⟨f, t, wfb, c0, false⟩ : Repro.RLink)] }
            : Repro.RGenome).links.length) rl = 0 := by
        simp [Repro.rand_range, Nat.mod_one]
      rw [hr0]
      rfl
  · refine add_random_node_tail_aux cfg g0 c0 rf rt wfb rl ra ub ug rp
      hrec hni hno hsz hz hall3 ?_
    intro l hl hld
    exact Or.inl (hlive l hl hld)

/-- mutate_one keeps every live link ordered on a well-formed
non-recurrent genome. -/
theorem mutate_one_live_sorted_aux (cfg : Repro.Config) (g : Repro.RGenome)
    (c : ℕ) (r : Repro.MutRands)
    (hrec : cfg.is_recurrent = false) (hni : 1 ≤ cfg.num_inputs)
    (hno : cfg.num_outputs = 1) (hsz : cfg.num_inputs + 1 ≤ g.nodes.length)
    (hall3 : ∀ l ∈ g.links, l.from_node < l.to_node ∧
      l.to_node < g.nodes.length ∧ cfg.num_inputs ≤ l.to_node)
    (hlive : ∀ l ∈ g.links, l.deleted = false →
      (g.nodes.getD l.from_node default).deleted = false) :
    ∀ lk ∈ (Repro.mutate_one cfg g c r).1.links, lk.deleted = false →
      lk.from_node < lk.to_node := by
  unfold Repro.mutate_one
  dsimp only
  split_ifs with h0 h1 h1h h2 h3 h5 h6 h7 h7l
  · exact add_random_node_live_sorted_aux cfg g c r.r_from r.r_to r.u_weight
      r.r_link r.r_act r.u_bias r.u_gain r.r_pos hrec hni hno hsz hall3 hlive
  · intro lk hlk hld
    obtain ⟨l0, hl0, hEq⟩ := List.mem_map.mp hlk
    by_cases hc : l0.from_node =
        Repro.rand_range cfg.num_inputs
          (cfg.num_inputs + (g.nodes.length - cfg.num_inputs - cfg.num_outputs))
          r.r_node ∨
        l0.to_node =
        Repro.rand_range cfg.num_inputs
          (cfg.num_inputs + (g.nodes.length - cfg.num_inputs - cfg.num_outputs))
          r.r_node
    · rw [if_pos hc] at hEq
      rw [← hEq] at hld
      simp at hld
    · rw [if_neg hc] at hEq
      rw [← hEq]
      exact (hall3 l0 hl0).1
  · exact fun lk hlk _ => (hall3 lk hlk).1
  · exact fun lk hlk _ => (hall3 lk hlk).1
  · exact fun lk hlk _ => (hall3 lk hlk).1
  · exact add_random_link_live_sorted_aux cfg g c r.r_from r.r_to r.u_weight
      hrec hni hsz (fun l h => (hall3 l h).1)
  · intro lk hlk hld
    rcases List.mem_or_eq_of_mem_set hlk with hmem | hEq
    · exact (hall3 lk hmem).1
    · rw [hEq] at hld
      simp at hld
  · intro lk hlk hld
    rcases List.mem_or_eq_of_mem_set hlk with hmem | hEq
    · exact (hall3 lk hmem).1
    · have hlt : Repro.rand_range 0 g.links.length r.r_link <
          g.links.length := (rand_range_bounds_aux 0 g.links.length r.r_link
          (by omega)).2
      have hmem2 : g.links.getD (Repro.rand_range 0 g.links.length r.r_link)
          default ∈ g.links := by
        rw [List.getD_eq_getElem _ _ hlt]
        exact List.getElem_mem _
      rw [hEq]
      exact (hall3 _ hmem2).1
  · exact add_random_link_live_sorted_aux cfg g c r.r_from r.r_to r.u_weight
      hrec hni hsz (fun l h => (hall3 l h).1)
  · exact fun lk hlk _ => (hall3 lk hlk).1

/-- crossover output links are copies of live parent or live mate
links, hence ordered, for any table whose entries are valid mate
indices. -/
theorem crossover_live_sorted_aux (p_nodes : List Repro.RNode)
    (p_links m_links : List Repro.RLink) (table : ℕ → Option ℕ)
    (coin : ℕ → Bool)
    (hp : ∀ l ∈ p_links, l.deleted = false → l.from_node < l.to_node)
    (hm : ∀ l ∈ m_links, l.deleted = false → l.from_node < l.to_node)
    (htab : ∀ pl ml, table pl = some ml → ml < m_links.length) :
    ∀ l ∈ (Repro.crossover p_nodes p_links m_links table coin).links,
      l.from_node < l.to_node := by
  suffices h : ∀ (suffix : List Repro.RLink) (k : ℕ),
      (∀ l ∈ suffix, l.deleted = false → l.from_node < l.to_node) →
      ∀ l ∈ Repro.crossover_links m_links table coin suffix k,
        l.from_node < l.to_node from
    fun l hl => h p_links 0 hp l hl
  intro suffix
  induction suffix with
  | nil =>
    intro k _ l hl
    simp [Repro.crossover_links] at hl
  | cons plk rest ih =>
    intro k hsuf l hl
    have htail : ∀ l ∈ rest, l.deleted = false → l.from_node < l.to_node :=
      fun l h => hsuf l (List.mem_cons_of_mem _ h)
    by_cases hdel : plk.deleted
    · rw [Repro.crossover_links, if_pos hdel] at hl
      exact ih (k + 1) htail l hl
    · have hplive : plk.deleted = false := by
        cases hd : plk.deleted
        · rfl
        · exact absurd hd hdel
      rw [Repro.crossover_links, if_neg hdel] at hl
      rcases List.mem_cons.mp hl with hEq | hrest
      · rw [hEq]
        cases htk : table k with
        | none =>
          exact hsuf plk (List.mem_cons_self _ _) hplive
        | some ml =>
          dsimp only
          by_cases hc : (m_links.getD ml default).deleted = false ∧
              coin k = true
          · rw [if_pos hc]
            have hlt := htab k ml htk
            have hmemm : m_links.getD ml default ∈ m_links := by
              rw [List.getD_eq_getElem _ _ hlt]
              exact List.getElem_mem _
            exact hm _ hmemm hc.1
          · rw [if_neg hc]
            exact hsuf plk (List.mem_cons_self _ _) hplive
      · exact ih (k + 1) htail l hrest

/-- C1: on a well-formed non-recurrent genome — links ordered and in
range, live links starting at live nodes, at least one input and
exactly one output (asserted by the Neat class in src/neat.py) — a
single mutate_one application leaves every live link with
from_node < to_node, and a crossover or clone offspring of parents
whose live links are ordered has only ordered links; in particular the
mate's link record copied by crossover's coin flip is itself an ordered
live link of the mate. -/
theorem C1_topological_order_preserved
    (cfg : Repro.Config) (g : Repro.RGenome) (c : ℕ) (r : Repro.MutRands)
    (p_nodes : List Repro.RNode) (p_links m_links : List Repro.RLink)
    (table : ℕ → Option ℕ) (coin : ℕ → Bool)
    (hrec : cfg.is_recurrent = false)
    (hni : 1 ≤ cfg.num_inputs)
    (hno : cfg.num_outputs = 1)
    (hsz : cfg.num_inputs + cfg.num_outputs ≤ g.nodes.length)
    (hall : ∀ l ∈ g.links, l.from_node < l.to_node ∧
      l.to_node < g.nodes.length ∧ cfg.num_inputs ≤ l.to_node)
    (hlive : ∀ l ∈ g.links, l.deleted = false →
      (g.nodes.getD l.from_node default).deleted = false)
    (hp : ∀ l ∈ p_links, l.deleted = false → l.from_node < l.to_node)
    (hm : ∀ l ∈ m_links, l.deleted = false → l.from_node < l.to_node)
    (htab : ∀ pl ml, table pl = some ml → ml < m_links.length) :
    (∀ lk ∈ (Repro.mutate_one cfg g c r).1.links, lk.deleted = false →
      lk.from_node < lk.to_node) ∧
    (∀ lk ∈ (Repro.crossover p_nodes p_links m_links table coin).links,
      lk.from_node < lk.to_node) ∧
    (∀ lk ∈ (Repro.clone p_nodes p_links).links,
      lk.from_node < lk.to_node) := by
  rw [hno] at hsz
  refine ⟨mutate_one_live_sorted_aux cfg g c r hrec hni hno hsz hall hlive,
    crossover_live_sorted_aux p_nodes p_links m_links table coin hp hm htab,
    fun lk hlk => ?_⟩
  have hmf := List.mem_filter.mp hlk
  exact hp lk hmf.1 (by simpa using hmf.2)

/-- Witness for C1: the invariant machinery applied to a concrete
genome and parents. -/
theorem C1_witness :
    (1 ≤ cfgW.num_inputs) ∧ (cfgW.is_recurrent = false) ∧
    lnkCloneW ∈ (Repro.clone pNodesW pLinksW).links ∧
    lnkCloneW.from_node < lnkCloneW.to_node := by
  have h := C1_topological_order_preserved cfgW gW 0 rand4W pNodesW pLinksW
    mLinksW tblNoneW coinW rfl (by decide) rfl (by decide) (by decide)
    (by decide) (by decide) (by decide) (fun _ _ hx => Option.noConfusion hx)
  have hlist : (Repro.clone pNodesW pLinksW).links = [lnkCloneW] := rfl
  have hmem : lnkCloneW ∈ (Repro.clone pNodesW pLinksW).links := by
    rw [hlist]
    exact List.mem_singleton.mpr rfl
  exact ⟨by decide, by decide, hmem, h.2.2 lnkCloneW hmem⟩
